import Mathlib

/-!
# Verified model of the SubTitlePro subtitle pipeline (`app.py`)

Shallow embedding of the pure core of `app.py`:

* `sekunden_zu_srt_zeit` — the time encoder (seconds → `HH:MM:SS,mmm`);
* `erstelle_srt`         — the subtitle formatter (segments → SRT blob);
* `validate_srt`         — the shape validator for SRT blobs;
* `merge_video_mit_srt`  — the ffmpeg merge invoker (modelled against an
  explicit process-running capability, as the external call is opaque).

Python strings are modelled as `List Char`; Python floats are modelled as
exact rationals (`ℚ`).  The float operations the encoder performs are exact
in IEEE-754 binary64 at the specific literal inputs evaluated below (for
`pyFloat7325_999` the subtraction of the integer part, the multiplication
by 1000 and the floor divisions/moduli all land on representable values),
so evaluating the rational model at the binary64 value of such a literal
reproduces the Python run exactly.  The millisecond multiplication
`(sekunden - int(sekunden)) * 1000` is *not* exact for arbitrary binary64
inputs: `b64Round43` models its correctly rounded binary64 result on the
binade [512, 1024), and `pyFloat0_563` is an input at which that product
rounds up across an integer, so the exact-rational encoder is faithful to
the program only where the product is representable (the millisecond
round-trip property is scoped accordingly).  `str.strip()` is modelled over
the ASCII whitespace set (Python additionally strips some Unicode-only
whitespace code points, which no claim exercises).
-/

namespace SubTitlePro

/-- The ASCII whitespace characters of Python's `str.strip()`:
space, tab, newline, carriage return, vertical tab, form feed. -/
def isPySpace (c : Char) : Bool :=
  c = ' ' || c = '\t' || c = '\n' || c = '\r' || c = Char.ofNat 11 || c = Char.ofNat 12

/-- Left part of Python `str.strip()`. -/
def lstrip (s : List Char) : List Char := s.dropWhile isPySpace

/-- Right part of Python `str.strip()`. -/
def rstrip (s : List Char) : List Char := (s.reverse.dropWhile isPySpace).reverse

/-- Python `content.strip()` on a list of characters. -/
def pyStrip (s : List Char) : List Char := rstrip (lstrip s)

/-- Python `s.split("\n")` (single-newline separator, keeps empty pieces). -/
def splitNL : List Char → List (List Char)
  | [] => [[]]
  | c :: cs =>
    if c = '\n' then [] :: splitNL cs
    else
      match splitNL cs with
      | [] => [[c]]
      | l :: ls => (c :: l) :: ls

/-- Python `s.split("\n\n")` (double-newline separator, scanning left to
right, non-overlapping, keeps empty pieces). -/
def splitBlank : List Char → List (List Char)
  | [] => [[]]
  | [c] => [[c]]
  | c :: d :: rest =>
    if c = '\n' ∧ d = '\n' then [] :: splitBlank rest
    else
      match splitBlank (d :: rest) with
      | [] => [[c]]
      | l :: ls => (c :: l) :: ls

/-- `hasLead pat s`: `pat` is a leading segment of `s`. -/
def hasLead : List Char → List Char → Bool
  | [], _ => true
  | _ :: _, [] => false
  | p :: ps, c :: cs => p = c && hasLead ps cs

/-- Python's substring test `pat in s`. -/
def hasSub (pat : List Char) : List Char → Bool
  | [] => hasLead pat []
  | c :: cs => hasLead pat (c :: cs) || hasSub pat cs

/-- Python `s.replace(old, new)` for a one-character `old`: every
occurrence of `old` becomes `new`, all other characters are kept. -/
def replaceChar (old : Char) (new : List Char) : List Char → List Char
  | [] => []
  | c :: cs => (if c = old then new else [c]) ++ replaceChar old new cs

/-- The decimal digit character for `d < 10`. -/
def digitChar (d : Nat) : Char := Char.ofNat (48 + d)

/-- Fuel-driven decimal representation (the fuel makes it structurally
recursive so that the kernel can evaluate it). -/
def natReprAux : Nat → Nat → List Char
  | 0, _ => []
  | fuel + 1, n =>
    if n < 10 then [digitChar n]
    else natReprAux fuel (n / 10) ++ [digitChar (n % 10)]

/-- Decimal representation of a natural number, as Python `str` renders it. -/
def natRepr (n : Nat) : List Char := natReprAux (n + 1) n

/-- Pad a digit string on the left with zeros to width `w`
(no-op when it is already at least that wide). -/
def zeroFill (w : Nat) (ds : List Char) : List Char :=
  List.replicate (w - ds.length) '0' ++ ds

/-- Python `f"{i:0w}"` for an integer `i`: sign first, then zero padding
up to total width `w`. -/
def padTo (w : Nat) (i : Int) : List Char :=
  if i < 0 then '-' :: zeroFill (w - 1) (natRepr i.natAbs)
  else zeroFill w (natRepr i.toNat)

/-- Python `int()` on a rational: truncation toward zero
(`Rat.floor` rather than `Int.floor` keeps it kernel-computable). -/
def truncQ (q : ℚ) : Int := if 0 ≤ q then Rat.floor q else -Rat.floor (-q)

/-- Python float `%`: `a % b = a - b * (a // b)` with floor division. -/
def pyMod (a b : ℚ) : ℚ := a - b * (Rat.floor (a / b) : ℚ)

/-- `sekunden_zu_srt_zeit` from `app.py`:
```python
millis = int((sekunden - int(sekunden)) * 1000)
h = int(sekunden // 3600)
m = int((sekunden % 3600) // 60)
s = int(sekunden % 60)
return f"{h:02}:{m:02}:{s:02},{millis:03}"
```
`//` is float floor division, so `int()` around an already floored value is
the identity and `h`, `m` are floors; `sekunden % 60` is in general not an
integer, so `s` goes through `int()` truncation, as does `millis`. -/
def sekunden_zu_srt_zeit (sekunden : ℚ) : List Char :=
  let millis : Int := truncQ ((sekunden - (truncQ sekunden : ℚ)) * 1000)
  let h : Int := Rat.floor (sekunden / 3600)
  let m : Int := Rat.floor (pyMod sekunden 3600 / 60)
  let s : Int := truncQ (pyMod sekunden 60)
  padTo 2 h ++ ':' :: padTo 2 m ++ ':' :: padTo 2 s ++ ',' :: padTo 3 millis

/-- One Whisper segment: the three dictionary entries `'start'`, `'end'`,
`'text'` that `erstelle_srt` reads (`end` is spelt `ende` as in the
source's local variable, since `end` is a Lean keyword). -/
structure Segment where
  start : ℚ
  ende : ℚ
  text : List Char

/-- The literal ` --> ` joining the two timestamps of an entry. -/
def arrowSep : List Char := [' ', '-', '-', '>', ' ']

/-- The token `-->` the validator looks for. -/
def arrowTok : List Char := ['-', '-', '>']

/-- The accumulation loop of `erstelle_srt`: for each segment, append
`f"{index}\n{start_zeit} --> {end_zeit}\n{text}\n\n"` with the text
stripped, counting `index` up from its initial value. -/
def erstelle_srt_loop (acc : List Char) (index : Nat) : List Segment → List Char
  | [] => acc
  | segment :: rest =>
    let text := pyStrip segment.text
    let start_zeit := sekunden_zu_srt_zeit segment.start
    let end_zeit := sekunden_zu_srt_zeit segment.ende
    erstelle_srt_loop
      (acc ++ natRepr index ++ '\n' :: (start_zeit ++ arrowSep ++ end_zeit)
           ++ '\n' :: text ++ ['\n', '\n'])
      (index + 1) rest

/-- `erstelle_srt` from `app.py`: `enumerate(segmente, start=1)` over the
segments, accumulating the formatted entries into one blob. -/
def erstelle_srt (segmente : List Segment) : List Char :=
  erstelle_srt_loop [] 1 segmente

/-- The one kind of runtime exception the validator's `try` could see:
an out-of-range list index. -/
inductive PyExc where
  | indexError
deriving DecidableEq

/-- Python `lines[1]`: fallible list indexing. -/
def pyIndex (l : List (List Char)) (i : Nat) : Except PyExc (List Char) :=
  match l[i]? with
  | some x => Except.ok x
  | none => Except.error PyExc.indexError

/-- The `for entry in entries` loop in `validate_srt`, with its early
returns, inside the exception monad: index access may in principle raise. -/
def validateLoop : List (List Char) → Except PyExc Bool
  | [] => Except.ok true
  | entry :: rest =>
    let lines := splitNL entry
    if lines.length < 3 then Except.ok false
    else
      match pyIndex lines 1 with
      | Except.error e => Except.error e
      | Except.ok l2 =>
        if hasSub arrowTok l2 then validateLoop rest else Except.ok false

/-- The body of `validate_srt`'s `try` block:
`entries = content.strip().split("\n\n")`, then the entry loop. -/
def validate_body (content : List Char) : Except PyExc Bool :=
  validateLoop (splitBlank (pyStrip content))

/-- `validate_srt` from `app.py`: the `try`/`except` coerces any exception
from the body to `False`. -/
def validate_srt (content : List Char) : Bool :=
  match validate_body content with
  | Except.ok b => b
  | Except.error _ => false

/-- The single-quote character `'` (spelt out by code point). -/
def sq : Char := Char.ofNat 39

/-- The path escaping in `merge_video_mit_srt`:
`srt_path.replace('\\', '/').replace(':', '\\:')`. -/
def escapeSrtPath (srt_path : List Char) : List Char :=
  replaceChar ':' ['\\', ':'] (replaceChar '\\' ['/'] srt_path)

/-- The ffmpeg argument vector built by `merge_video_mit_srt`. -/
def buildMergeCommand (video_path srt_path output_path : List Char) :
    List (List Char) :=
  let srt_path_safe := escapeSrtPath srt_path
  [ "ffmpeg".toList,
    "-i".toList, video_path,
    "-vf".toList, "subtitles=".toList ++ sq :: srt_path_safe ++ [sq],
    "-c:v".toList, "libx264".toList,
    "-c:a".toList, "copy".toList,
    "-y".toList,
    output_path ]

/-- The outcome of `subprocess.run(command, capture_output=True, text=True)`
as far as `merge_video_mit_srt` inspects it. -/
structure ProcResult where
  returncode : Int
  stderr : List Char
deriving DecidableEq

/-- `merge_video_mit_srt` from `app.py`, with the external process as an
explicit capability `run` (the source also logs `stderr` on failure, a
side effect with no influence on the returned value):
`return result.returncode == 0, result.stderr`. -/
def merge_video_mit_srt (video_path srt_path output_path : List Char)
    (run : List (List Char) → ProcResult) : Bool × List Char :=
  let result := run (buildMergeCommand video_path srt_path output_path)
  (result.returncode = 0, result.stderr)

/-! ## Spec-side definitions

The following definitions follow the wording of the specification (not the
source) and exist to be compared with the source-derived functions above. -/

/-- Entry *i* of a subtitle document as §4.2 of the spec words it: the index
line, the timing line joining the two encoded times with ` --> `, the
trimmed text, then a blank line. -/
def specEntry (i : Nat) (seg : Segment) : List Char :=
  natRepr i
    ++ '\n' :: (sekunden_zu_srt_zeit seg.start ++ arrowSep ++ sekunden_zu_srt_zeit seg.ende)
    ++ '\n' :: pyStrip seg.text ++ ['\n', '\n']

/-- The validator contract as §4.3 of the spec words it: trim the whole
blob, split it on the double-newline separator, and accept exactly when
every block has at least 3 lines and its second line contains `-->`. -/
def specShape (content : List Char) : Bool :=
  (splitBlank (pyStrip content)).all fun block =>
    decide (3 ≤ (splitNL block).length)
      && hasSub arrowTok ((splitNL block).getD 1 [])

/-- Numeric value of a decimal digit character. -/
def digitVal (c : Char) : Nat := c.toNat - 48

/-- Numeric value of a decimal digit string. -/
def digitsVal (ds : List Char) : Nat := ds.foldl (fun a c => 10 * a + digitVal c) 0

/-- The IEEE-754 binary64 value of the Python literal `7325.999`
(`(7325.999).hex() == '0x1.c9dffbe76c8b4p+12'`), which is what the program
actually receives; it lies strictly below the rational 7325.999.  Every
operation the encoder performs on it (subtracting the integer part,
multiplying by 1000, floor division and modulus by 60 and 3600) is exact in
binary64, so the rational model evaluated here reproduces the Python run. -/
def pyFloat7325_999 : ℚ := 2013755271393837 / 274877906944

/-- No two adjacent newline characters occur in the string: such a string
is kept intact by the double-newline split. -/
def noNLNL : List Char → Bool
  | [] => true
  | [_] => true
  | c :: d :: rest => !(c = '\n' && d = '\n') && noNLNL (d :: rest)

/-- Join blocks with the double-newline entry separator. -/
def joinSep : List (List Char) → List Char
  | [] => []
  | [b] => b
  | b :: c :: rest => b ++ '\n' :: '\n' :: joinSep (c :: rest)

/-- The timing line of one formatted entry. -/
def timingLine (seg : Segment) : List Char :=
  sekunden_zu_srt_zeit seg.start ++ arrowSep ++ sekunden_zu_srt_zeit seg.ende

/-- The part of one formatted entry before its closing blank line: index
line, timing line, trimmed text. -/
def entryBody (i : Nat) (seg : Segment) : List Char :=
  natRepr i ++ '\n' :: (timingLine seg ++ '\n' :: pyStrip seg.text)

/-! ## Helper lemmas -/

/-- Replacing a character by a single character is a character map. -/
theorem replaceChar_singleton (old nc : Char) (s : List Char) :
    replaceChar old [nc] s = s.map fun c => if c = old then nc else c := by
  induction s with
  | nil => rfl
  | cons c cs ih =>
    by_cases h : c = old <;> simp [replaceChar, h, ih]

/-- `Rat.floor` agrees with the `FloorRing` floor on `ℚ`. -/
theorem ratFloor_eq_floor (q : ℚ) : Rat.floor q = ⌊q⌋ := by
  rw [Rat.floor_def', Rat.floor_def]

theorem digitVal_digitChar : ∀ d, d < 10 → digitVal (digitChar d) = d := by decide

theorem isDigit_digitChar : ∀ d, d < 10 → (digitChar d).isDigit = true := by decide

theorem natReprAux_step (fuel n : Nat) (h : ¬ n < 10) :
    natReprAux (fuel + 1) n = natReprAux fuel (n / 10) ++ [digitChar (n % 10)] := by
  simp only [natReprAux]
  rw [if_neg h]

theorem natReprAux_spec :
    ∀ fuel n, n < fuel →
      natReprAux fuel n ≠ [] ∧ (∀ c ∈ natReprAux fuel n, c.isDigit = true) ∧
        digitsVal (natReprAux fuel n) = n := by
  intro fuel
  induction fuel with
  | zero => exact fun n h => absurd h (Nat.not_lt_zero n)
  | succ fuel ih =>
    intro n hn
    by_cases h10 : n < 10
    · have hone : natReprAux (fuel + 1) n = [digitChar n] := by
        simp only [natReprAux]
        rw [if_pos h10]
      refine ⟨by simp [hone], ?_, ?_⟩
      · intro c hc
        rw [hone] at hc
        simp only [List.mem_singleton] at hc
        subst hc
        exact isDigit_digitChar n h10
      · rw [hone]
        simp [digitsVal, digitVal_digitChar n h10]
    · have hdiv : n / 10 < fuel := by omega
      obtain ⟨hne, hdig, hval⟩ := ih (n / 10) hdiv
      rw [natReprAux_step fuel n h10]
      refine ⟨by simp, ?_, ?_⟩
      · intro c hc
        rcases List.mem_append.mp hc with h1 | h1
        · exact hdig c h1
        · simp only [List.mem_singleton] at h1
          subst h1
          exact isDigit_digitChar _ (Nat.mod_lt _ (by omega))
      · have : digitsVal (natReprAux fuel (n / 10) ++ [digitChar (n % 10)])
            = 10 * digitsVal (natReprAux fuel (n / 10)) + digitVal (digitChar (n % 10)) := by
          simp [digitsVal, List.foldl_append]
        rw [this, hval, digitVal_digitChar _ (Nat.mod_lt _ (by omega))]
        omega

theorem natRepr_ne_nil (n : Nat) : natRepr n ≠ [] :=
  (natReprAux_spec (n + 1) n (Nat.lt_succ_self n)).1

theorem natRepr_digits (n : Nat) : ∀ c ∈ natRepr n, c.isDigit = true :=
  (natReprAux_spec (n + 1) n (Nat.lt_succ_self n)).2.1

theorem zeroFill_digits (w : Nat) (ds : List Char)
    (h : ∀ c ∈ ds, c.isDigit = true) : ∀ c ∈ zeroFill w ds, c.isDigit = true := by
  intro c hc
  rcases List.mem_append.mp hc with h1 | h1
  · rw [List.eq_of_mem_replicate h1]
    decide
  · exact h c h1

theorem padTo_nonneg (w : Nat) (i : ℤ) (h : 0 ≤ i) :
    padTo w i = zeroFill w (natRepr i.toNat) := by
  rw [padTo, if_neg (by omega)]

/-- Structural characterization of the encoder for non-negative inputs:
the four components are the obvious hour/minute/second/millisecond fields
of `⌊q⌋₊`, with the milliseconds truncated from the fractional part. -/
theorem zeit_char (q : ℚ) (hq : 0 ≤ q) :
    sekunden_zu_srt_zeit q =
      zeroFill 2 (natRepr (⌊q⌋₊ / 3600)) ++ ':' ::
      (zeroFill 2 (natRepr (⌊q⌋₊ / 60 % 60)) ++ ':' ::
      (zeroFill 2 (natRepr (⌊q⌋₊ % 60)) ++ ',' ::
      zeroFill 3 (natRepr ⌊(q - (⌊q⌋₊ : ℚ)) * 1000⌋₊))) := by
  have hfloor : ⌊q⌋ = ((⌊q⌋₊ : ℕ) : ℤ) := (Int.natCast_floor_eq_floor hq).symm
  have h3600 : Rat.floor (q / 3600) = ((⌊q⌋₊ / 3600 : ℕ) : ℤ) := by
    rw [ratFloor_eq_floor, ← Nat.floor_div_ofNat q 3600]
    exact (Int.natCast_floor_eq_floor (by positivity)).symm
  have h60i : ⌊q / 60⌋ = ((⌊q⌋₊ / 60 : ℕ) : ℤ) := by
    rw [← Nat.floor_div_ofNat q 60]
    exact (Int.natCast_floor_eq_floor (by positivity)).symm
  have hm : Rat.floor (pyMod q 3600 / 60) = ((⌊q⌋₊ / 60 % 60 : ℕ) : ℤ) := by
    rw [ratFloor_eq_floor, pyMod, ratFloor_eq_floor]
    rw [show ⌊q / 3600⌋ = ((⌊q⌋₊ / 3600 : ℕ) : ℤ) from by
      rw [← Nat.floor_div_ofNat q 3600]
      exact (Int.natCast_floor_eq_floor (by positivity)).symm]
    have expand : (q - 3600 * (((⌊q⌋₊ / 3600 : ℕ) : ℤ) : ℚ)) / 60
        = q / 60 - (((60 * (⌊q⌋₊ / 3600) : ℕ) : ℤ) : ℚ) := by
      push_cast
      ring
    rw [expand, Int.floor_sub_int, h60i]
    have hdd : ⌊q⌋₊ / 3600 = ⌊q⌋₊ / 60 / 60 := by
      rw [Nat.div_div_eq_div_mul]
    rw [hdd]
    omega
  have hs_arg : pyMod q 60 = q - (((60 * (⌊q⌋₊ / 60) : ℕ) : ℤ) : ℚ) := by
    rw [pyMod, ratFloor_eq_floor, h60i]
    push_cast
    ring
  have hs_nonneg : 0 ≤ pyMod q 60 := by
    rw [hs_arg]
    have h1 : (60 * (⌊q⌋₊ / 60)) ≤ ⌊q⌋₊ := by omega
    have h2 : (((60 * (⌊q⌋₊ / 60) : ℕ) : ℤ) : ℚ) ≤ ((⌊q⌋₊ : ℕ) : ℚ) := by
      push_cast
      exact_mod_cast Nat.cast_le.mpr h1
    have h3 : ((⌊q⌋₊ : ℕ) : ℚ) ≤ q := Nat.floor_le hq
    linarith
  have hs : truncQ (pyMod q 60) = ((⌊q⌋₊ % 60 : ℕ) : ℤ) := by
    rw [truncQ, if_pos hs_nonneg, ratFloor_eq_floor, hs_arg, Int.floor_sub_int, hfloor]
    omega
  have htr : truncQ q = ((⌊q⌋₊ : ℕ) : ℤ) := by
    rw [truncQ, if_pos hq, ratFloor_eq_floor, hfloor]
  have hfrac_nonneg : 0 ≤ (q - ((((⌊q⌋₊ : ℕ) : ℤ)) : ℚ)) * 1000 := by
    have h3 : ((⌊q⌋₊ : ℕ) : ℚ) ≤ q := Nat.floor_le hq
    have : (0 : ℚ) ≤ q - ((⌊q⌋₊ : ℕ) : ℚ) := by linarith
    have hcast : ((((⌊q⌋₊ : ℕ) : ℤ)) : ℚ) = ((⌊q⌋₊ : ℕ) : ℚ) := by push_cast; ring
    rw [hcast]
    nlinarith
  have hms : truncQ ((q - (truncQ q : ℚ)) * 1000)
      = ((⌊(q - (⌊q⌋₊ : ℚ)) * 1000⌋₊ : ℕ) : ℤ) := by
    rw [htr, truncQ, if_pos hfrac_nonneg, ratFloor_eq_floor]
    have hcast : ((((⌊q⌋₊ : ℕ) : ℤ)) : ℚ) = ((⌊q⌋₊ : ℕ) : ℚ) := by push_cast; ring
    rw [hcast]
    exact (Int.natCast_floor_eq_floor (by
      have h3 : ((⌊q⌋₊ : ℕ) : ℚ) ≤ q := Nat.floor_le hq
      nlinarith)).symm
  simp only [sekunden_zu_srt_zeit]
  rw [h3600, hm, hs, hms]
  rw [padTo_nonneg 2 _ (Int.natCast_nonneg _), padTo_nonneg 2 _ (Int.natCast_nonneg _),
    padTo_nonneg 2 _ (Int.natCast_nonneg _), padTo_nonneg 3 _ (Int.natCast_nonneg _)]
  simp only [Int.toNat_natCast, List.cons_append, List.append_assoc]

/-- Concrete evaluation of the encoder: supply the integer part `N` and the
truncated milliseconds `M` with the four bounding inequalities, and the
output is computed by pure natural-number arithmetic. -/
theorem zeit_eval (q : ℚ) (N M : Nat) (h1 : (N : ℚ) ≤ q) (h2 : q < N + 1)
    (h3 : (M : ℚ) ≤ (q - N) * 1000) (h4 : (q - N) * 1000 < M + 1) :
    sekunden_zu_srt_zeit q =
      zeroFill 2 (natRepr (N / 3600)) ++ ':' ::
      (zeroFill 2 (natRepr (N / 60 % 60)) ++ ':' ::
      (zeroFill 2 (natRepr (N % 60)) ++ ',' ::
      zeroFill 3 (natRepr M))) := by
  have hq : 0 ≤ q := le_trans (Nat.cast_nonneg N) h1
  have hN : ⌊q⌋₊ = N := (Nat.floor_eq_iff hq).mpr ⟨h1, h2⟩
  have hM : ⌊(q - (N : ℚ)) * 1000⌋₊ = M :=
    (Nat.floor_eq_iff (le_trans (Nat.cast_nonneg M) h3)).mpr ⟨h3, h4⟩
  rw [zeit_char q hq, hN, hM]

/-- The validator's entry loop never raises: the length guard runs before
the `lines[1]` access, so the index is always in range. -/
theorem validateLoop_never_errors (entries : List (List Char)) :
    ∃ b, validateLoop entries = Except.ok b := by
  induction entries with
  | nil => exact ⟨true, rfl⟩
  | cons e rest ih =>
    simp only [validateLoop]
    by_cases h3 : (splitNL e).length < 3
    · rw [if_pos h3]
      exact ⟨false, rfl⟩
    · rw [if_neg h3]
      have hlt : 1 < (splitNL e).length := by omega
      have hidx : (splitNL e)[1]? = some ((splitNL e).get ⟨1, hlt⟩) :=
        List.getElem?_eq_getElem hlt
      simp only [pyIndex, hidx]
      by_cases harrow : hasSub arrowTok ((splitNL e).get ⟨1, hlt⟩) = true
      · obtain ⟨b, hb⟩ := ih
        rw [if_pos harrow]
        exact ⟨b, hb⟩
      · rw [if_neg harrow]
        exact ⟨false, rfl⟩

/-- The validator's entry loop computes the conjunction of the per-entry
shape checks. -/
theorem validateLoop_eq_all (entries : List (List Char)) :
    validateLoop entries = Except.ok (entries.all fun e =>
      decide (3 ≤ (splitNL e).length) && hasSub arrowTok ((splitNL e).getD 1 [])) := by
  induction entries with
  | nil => rfl
  | cons e rest ih =>
    simp only [validateLoop, List.all_cons]
    by_cases h3 : (splitNL e).length < 3
    · rw [if_pos h3]
      have hd : decide (3 ≤ (splitNL e).length) = false := by
        simp
        omega
      rw [hd]
      simp
    · rw [if_neg h3]
      have hlt : 1 < (splitNL e).length := by omega
      have hidx : (splitNL e)[1]? = some ((splitNL e).get ⟨1, hlt⟩) :=
        List.getElem?_eq_getElem hlt
      simp only [pyIndex, hidx]
      have hd : decide (3 ≤ (splitNL e).length) = true := by
        simp
        omega
      have hgetD : (splitNL e).getD 1 [] = (splitNL e).get ⟨1, hlt⟩ := by
        simp [List.getD, hidx]
      rw [hd, hgetD]
      by_cases harrow : hasSub arrowTok ((splitNL e).get ⟨1, hlt⟩) = true
      · rw [if_pos harrow, harrow, ih]
        simp
      · rw [if_neg harrow]
        simp only [Bool.not_eq_true] at harrow
        rw [harrow]
        simp

/-- The formatter's accumulation loop, related to a positional map: entry
`k` (0-based) of the remaining list carries index `k + i`. -/
theorem erstelle_srt_loop_eq (segs : List Segment) :
    ∀ acc i, erstelle_srt_loop acc i segs
      = acc ++ ((List.range segs.length).map fun k =>
          specEntry (k + i) (segs.getD k ⟨0, 0, []⟩)).flatten := by
  induction segs with
  | nil =>
    intro acc i
    simp [erstelle_srt_loop]
  | cons s rest ih =>
    intro acc i
    have hstep : erstelle_srt_loop acc i (s :: rest)
        = erstelle_srt_loop (acc ++ specEntry i s) (i + 1) rest := by
      simp only [erstelle_srt_loop, specEntry, List.append_assoc]
    rw [hstep, ih]
    rw [List.length_cons, List.range_succ_eq_map, List.map_cons, List.map_map]
    have hfun : ((fun k => specEntry (k + i) ((s :: rest).getD k ⟨0, 0, []⟩)) ∘ Nat.succ)
        = fun k => specEntry (k + (i + 1)) (rest.getD k ⟨0, 0, []⟩) := by
      funext k
      simp only [Function.comp_apply, List.getD_cons_succ]
      congr 1
      omega
    rw [hfun]
    simp [List.append_assoc]

theorem hasLead_append_self (pat rest : List Char) : hasLead pat (pat ++ rest) = true := by
  induction pat with
  | nil => rfl
  | cons p ps ih => simp [hasLead, ih]

theorem hasSub_of_hasLead {pat s : List Char} (h : hasLead pat s = true) :
    hasSub pat s = true := by
  cases s with
  | nil => simpa [hasSub] using h
  | cons c cs => simp [hasSub, h]

theorem hasSub_append_left (pat s t : List Char) (h : hasSub pat t = true) :
    hasSub pat (s ++ t) = true := by
  induction s with
  | nil => simpa using h
  | cons c cs ih => simp [hasSub, ih]

theorem splitNL_cons (c : Char) (cs : List Char) :
    splitNL (c :: cs) =
      if c = '\n' then [] :: splitNL cs
      else
        match splitNL cs with
        | [] => [[c]]
        | l :: ls => (c :: l) :: ls := rfl

theorem splitNL_no_nl (s : List Char) (h : '\n' ∉ s) : splitNL s = [s] := by
  induction s with
  | nil => rfl
  | cons c cs ih =>
    have hc : ¬ c = '\n' := fun e => h (by simp [e])
    have hcs : '\n' ∉ cs := fun m => h (by simp [m])
    rw [splitNL_cons, if_neg hc, ih hcs]

theorem splitNL_append (x y : List Char) (hx : '\n' ∉ x) :
    splitNL (x ++ '\n' :: y) = x :: splitNL y := by
  induction x with
  | nil =>
    rw [List.nil_append, splitNL_cons, if_pos rfl]
  | cons c cs ih =>
    have hc : ¬ c = '\n' := fun e => hx (by simp [e])
    have hcs : '\n' ∉ cs := fun m => hx (by simp [m])
    rw [List.cons_append, splitNL_cons, if_neg hc, ih hcs]

theorem noNLNL_two (c d : Char) (rest : List Char) :
    noNLNL (c :: d :: rest) = (!(c = '\n' && d = '\n') && noNLNL (d :: rest)) := rfl

theorem noNLNL_cons (c : Char) (rest : List Char)
    (h1 : ¬ (c = '\n' ∧ rest.head? = some '\n')) (h2 : noNLNL rest = true) :
    noNLNL (c :: rest) = true := by
  cases rest with
  | nil => rfl
  | cons d t =>
    rw [noNLNL_two, h2, Bool.and_true]
    simp only [List.head?_cons] at h1
    by_cases hc : c = '\n'
    · have hd : ¬ d = '\n' := fun e => h1 ⟨hc, by rw [e]⟩
      simp [hd]
    · simp [hc]

theorem noNLNL_append (xs ys : List Char) (hx : '\n' ∉ xs) (hy : noNLNL ys = true) :
    noNLNL (xs ++ ys) = true := by
  induction xs with
  | nil => simpa using hy
  | cons c cs ih =>
    have hc : ¬ c = '\n' := fun e => hx (by simp [e])
    have hcs : '\n' ∉ cs := fun m => hx (by simp [m])
    rw [List.cons_append]
    exact noNLNL_cons c (cs ++ ys) (fun hp => hc hp.1) (ih hcs)

theorem noNLNL_of_append_left (xs ys : List Char) (h : noNLNL (xs ++ ys) = true) :
    noNLNL xs = true := by
  induction xs with
  | nil => rfl
  | cons c cs ih =>
    cases cs with
    | nil => rfl
    | cons d t =>
      rw [List.cons_append, List.cons_append, noNLNL_two] at h
      rw [noNLNL_two]
      simp only [Bool.and_eq_true] at h
      obtain ⟨hcd, hrest⟩ := h
      rw [hcd, Bool.true_and]
      exact ih (by rwa [List.cons_append])

theorem splitBlank_cons2 (c d : Char) (rest : List Char) :
    splitBlank (c :: d :: rest) =
      if c = '\n' ∧ d = '\n' then [] :: splitBlank rest
      else
        match splitBlank (d :: rest) with
        | [] => [[c]]
        | l :: ls => (c :: l) :: ls := rfl

theorem splitBlank_no_sep (s : List Char) (h : noNLNL s = true) : splitBlank s = [s] := by
  induction s with
  | nil => rfl
  | cons c cs ih =>
    cases cs with
    | nil => rfl
    | cons d t =>
      rw [noNLNL_two] at h
      simp only [Bool.and_eq_true, Bool.not_eq_true'] at h
      obtain ⟨hcd, hrest⟩ := h
      have hcd' : ¬ (c = '\n' ∧ d = '\n') := by
        intro ⟨h1, h2⟩
        rw [h1, h2] at hcd
        simp at hcd
      rw [splitBlank_cons2, if_neg hcd', ih hrest]

theorem splitBlank_sep (x rest : List Char) (hx : noNLNL (x ++ ['\n']) = true) :
    splitBlank (x ++ '\n' :: '\n' :: rest) = x :: splitBlank rest := by
  have hin : splitBlank ('\n' :: '\n' :: rest) = [] :: splitBlank rest := by
    rw [splitBlank_cons2, if_pos ⟨rfl, rfl⟩]
  induction x with
  | nil =>
    rw [List.nil_append, hin]
  | cons c cs ih =>
    cases cs with
    | nil =>
      have hc : ¬ c = '\n' := by
        intro e
        subst e
        rw [List.cons_append, List.nil_append, noNLNL_two] at hx
        simp at hx
      show splitBlank (c :: '\n' :: '\n' :: rest) = [c] :: splitBlank rest
      rw [splitBlank_cons2, if_neg (fun hp => hc hp.1), hin]
    | cons d t =>
      rw [List.cons_append, List.cons_append, noNLNL_two] at hx
      simp only [Bool.and_eq_true, Bool.not_eq_true'] at hx
      obtain ⟨hcd, hrest⟩ := hx
      have hcd' : ¬ (c = '\n' ∧ d = '\n') := by
        intro ⟨h1, h2⟩
        rw [h1, h2] at hcd
        simp at hcd
      have ih' := ih (by rwa [List.cons_append])
      show splitBlank (c :: d :: (t ++ '\n' :: '\n' :: rest)) = (c :: d :: t) :: splitBlank rest
      rw [splitBlank_cons2, if_neg hcd']
      rw [show d :: (t ++ '\n' :: '\n' :: rest) = (d :: t) ++ '\n' :: '\n' :: rest from rfl]
      rw [ih']

theorem flatten_blocks_joinSep (bodies : List (List Char)) (h : bodies ≠ []) :
    (bodies.map fun b => b ++ ['\n', '\n']).flatten = joinSep bodies ++ ['\n', '\n'] := by
  induction bodies with
  | nil => cases h rfl
  | cons b rest ih =>
    cases rest with
    | nil => simp [joinSep]
    | cons c t =>
      have ih' := ih (by simp)
      simp only [List.map_cons, List.flatten_cons] at ih' ⊢
      rw [ih']
      simp [joinSep, List.append_assoc]

theorem splitBlank_joinSep (bodies : List (List Char)) (hne : bodies ≠ [])
    (hgood : ∀ b ∈ bodies, noNLNL (b ++ ['\n']) = true) :
    splitBlank (joinSep bodies) = bodies := by
  induction bodies with
  | nil => cases hne rfl
  | cons b rest ih =>
    cases rest with
    | nil =>
      show splitBlank (joinSep [b]) = [b]
      have hb : noNLNL b = true :=
        noNLNL_of_append_left b ['\n'] (hgood b (by simp))
      simpa [joinSep] using splitBlank_no_sep b hb
    | cons c t =>
      show splitBlank (b ++ '\n' :: '\n' :: joinSep (c :: t)) = b :: c :: t
      rw [splitBlank_sep b _ (hgood b (by simp))]
      rw [ih (by simp) (fun x hx => hgood x (by simp [hx]))]

theorem head?_dropWhile_not (p : Char → Bool) (l : List Char) (c : Char)
    (h : (l.dropWhile p).head? = some c) : p c = false := by
  induction l with
  | nil => simp at h
  | cons a t ih =>
    rw [List.dropWhile_cons] at h
    by_cases hp : p a = true
    · rw [if_pos hp] at h
      exact ih h
    · rw [if_neg hp] at h
      simp only [List.head?_cons, Option.some.injEq] at h
      subst h
      simpa using hp

theorem dropWhile_append_all (p : Char → Bool) (a b : List Char)
    (h : ∀ c ∈ a, p c = true) : (a ++ b).dropWhile p = b.dropWhile p := by
  induction a with
  | nil => rfl
  | cons x t ih =>
    rw [List.cons_append, List.dropWhile_cons, if_pos (h x (by simp))]
    exact ih fun c hc => h c (by simp [hc])

theorem lstrip_eq_self (s : List Char)
    (h : ∀ c, s.head? = some c → isPySpace c = false) : lstrip s = s := by
  cases s with
  | nil => rfl
  | cons c t => simp [lstrip, List.dropWhile_cons, h c rfl]

theorem rstrip_eq_self (s : List Char)
    (h : ∀ c, s.getLast? = some c → isPySpace c = false) : rstrip s = s := by
  rw [rstrip]
  rw [show s.reverse.dropWhile isPySpace = lstrip s.reverse from rfl]
  rw [lstrip_eq_self s.reverse fun c hc => h c (by rwa [List.head?_reverse] at hc)]
  exact List.reverse_reverse s

theorem rstrip_append_spaces (xs ys : List Char) (h : ∀ c ∈ ys, isPySpace c = true) :
    rstrip (xs ++ ys) = rstrip xs := by
  rw [rstrip, rstrip, List.reverse_append,
    dropWhile_append_all _ _ _ fun c hc => h c (by simpa using hc)]

theorem rstrip_head? (t : List Char) (c : Char) (h : (rstrip t).head? = some c) :
    t.head? = some c := by
  have hsplit : rstrip t ++ (t.reverse.takeWhile isPySpace).reverse = t := by
    rw [rstrip, ← List.reverse_append, List.takeWhile_append_dropWhile,
      List.reverse_reverse]
  conv_lhs => rw [← hsplit]
  cases hr : rstrip t with
  | nil => rw [hr] at h; simp at h
  | cons a l =>
    rw [hr] at h
    simpa using h

theorem pyStrip_head (s : List Char) (c : Char) (h : (pyStrip s).head? = some c) :
    isPySpace c = false := by
  have h' : (rstrip (lstrip s)).head? = some c := h
  have h'' : (s.dropWhile isPySpace).head? = some c := rstrip_head? (lstrip s) c h'
  exact head?_dropWhile_not isPySpace s c h''

theorem pyStrip_last (s : List Char) (c : Char) (h : (pyStrip s).getLast? = some c) :
    isPySpace c = false := by
  rw [← List.head?_reverse,
    show (pyStrip s).reverse = (lstrip s).reverse.dropWhile isPySpace from by
      rw [pyStrip, rstrip, List.reverse_reverse]] at h
  exact head?_dropWhile_not _ _ _ h

theorem digit_not_space (c : Char) (h : c.isDigit = true) : isPySpace c = false := by
  by_contra hc
  simp only [Bool.not_eq_false, isPySpace, Bool.or_eq_true, decide_eq_true_eq] at hc
  rcases hc with ⟨⟨⟨⟨h1 | h1⟩ | h1⟩ | h1⟩ | h1⟩ | h1 <;>
    (subst h1; exact absurd h (by decide))

theorem digit_ne_nl (c : Char) (h : c.isDigit = true) : ¬ c = '\n' :=
  fun e => by subst e; exact absurd h (by decide)

theorem zeroFill_head (w : Nat) (ds : List Char) (hw : 0 < w)
    (hds : ∀ c ∈ ds, c.isDigit = true) :
    ∃ c t, zeroFill w ds = c :: t ∧ c.isDigit = true := by
  rcases Nat.lt_or_ge ds.length w with hlt | hge
  · have hsub : w - ds.length = (w - ds.length - 1) + 1 := by omega
    rw [zeroFill, hsub, List.replicate_succ, List.cons_append]
    exact ⟨'0', _, rfl, by decide⟩
  · have hsub : w - ds.length = 0 := by omega
    cases ds with
    | nil =>
      exfalso
      simp at hge
      omega
    | cons a l =>
      rw [zeroFill, hsub, List.replicate_zero, List.nil_append]
      exact ⟨a, l, rfl, hds a (by simp)⟩

theorem zeit_chars (q : ℚ) (hq : 0 ≤ q) :
    ∀ c ∈ sekunden_zu_srt_zeit q, c.isDigit = true ∨ c = ':' ∨ c = ',' := by
  rw [zeit_char q hq]
  intro c hc
  simp only [List.mem_append, List.mem_cons] at hc
  rcases hc with h | h | h | h | h | h | h
  · exact Or.inl (zeroFill_digits _ _ (natRepr_digits _) c h)
  · exact Or.inr (Or.inl h)
  · exact Or.inl (zeroFill_digits _ _ (natRepr_digits _) c h)
  · exact Or.inr (Or.inl h)
  · exact Or.inl (zeroFill_digits _ _ (natRepr_digits _) c h)
  · exact Or.inr (Or.inr h)
  · exact Or.inl (zeroFill_digits _ _ (natRepr_digits _) c h)

theorem zeit_ne_nl (q : ℚ) (hq : 0 ≤ q) : '\n' ∉ sekunden_zu_srt_zeit q := by
  intro hmem
  rcases zeit_chars q hq '\n' hmem with h | h | h
  · exact absurd h (by decide)
  · exact absurd h (by decide)
  · exact absurd h (by decide)

theorem zeit_head (q : ℚ) (hq : 0 ≤ q) :
    ∃ c t, sekunden_zu_srt_zeit q = c :: t ∧ c.isDigit = true := by
  obtain ⟨c, t, hct, hd⟩ :=
    zeroFill_head 2 (natRepr (⌊q⌋₊ / 3600)) (by omega) (natRepr_digits _)
  refine ⟨c, t ++ ':' :: (zeroFill 2 (natRepr (⌊q⌋₊ / 60 % 60)) ++ ':' ::
    (zeroFill 2 (natRepr (⌊q⌋₊ % 60)) ++ ',' ::
      zeroFill 3 (natRepr ⌊(q - (⌊q⌋₊ : ℚ)) * 1000⌋₊))), ?_, hd⟩
  rw [zeit_char q hq, hct]
  rfl

theorem getLast?_append_right (xs ys : List Char) (hy : ys ≠ []) :
    (xs ++ ys).getLast? = ys.getLast? := by
  rw [← List.head?_reverse, List.reverse_append,
    List.head?_append_of_ne_nil _ (by simpa using hy), List.head?_reverse]

theorem joinSep_head? (b : List Char) (rest : List (List Char)) (hb : b ≠ []) :
    (joinSep (b :: rest)).head? = b.head? := by
  cases rest with
  | nil => rfl
  | cons c t =>
    show (b ++ '\n' :: '\n' :: joinSep (c :: t)).head? = b.head?
    exact List.head?_append_of_ne_nil _ hb

theorem joinSep_last (bodies : List (List Char)) (hne : bodies ≠ [])
    (h : ∀ b ∈ bodies, ∃ c, b.getLast? = some c ∧ isPySpace c = false) :
    ∃ c, (joinSep bodies).getLast? = some c ∧ isPySpace c = false := by
  induction bodies with
  | nil => cases hne rfl
  | cons b rest ih =>
    cases rest with
    | nil => simpa [joinSep] using h b (by simp)
    | cons x t =>
      obtain ⟨c, hc, hcs⟩ := ih (by simp) fun y hy => h y (by simp [hy])
      refine ⟨c, ?_, hcs⟩
      show (b ++ '\n' :: '\n' :: joinSep (x :: t)).getLast? = some c
      have hjs : joinSep (x :: t) ≠ [] := by
        intro he
        rw [he] at hc
        simp at hc
      rw [getLast?_append_right _ _ (by simp),
        show ('\n' :: '\n' :: joinSep (x :: t)) = ['\n', '\n'] ++ joinSep (x :: t) from rfl,
        getLast?_append_right _ _ hjs]
      exact hc

theorem pyStrip_wrap (s : List Char)
    (hhead : ∀ c, s.head? = some c → isPySpace c = false)
    (hlast : ∀ c, s.getLast? = some c → isPySpace c = false) :
    pyStrip (s ++ ['\n', '\n']) = s := by
  cases s with
  | nil => decide
  | cons c t =>
    have hc := hhead c rfl
    rw [pyStrip]
    have hl : lstrip ((c :: t) ++ ['\n', '\n']) = (c :: t) ++ ['\n', '\n'] := by
      apply lstrip_eq_self
      intro x hx
      simp only [List.cons_append, List.head?_cons, Option.some.injEq] at hx
      subst hx
      exact hc
    rw [hl, rstrip_append_spaces _ _ (by decide)]
    exact rstrip_eq_self _ hlast

/-- The Validator as a pure conjunction of per-block shape checks. -/
theorem validate_srt_eq_all (content : List Char) :
    validate_srt content = ((splitBlank (pyStrip content)).all fun e =>
      decide (3 ≤ (splitNL e).length) && hasSub arrowTok ((splitNL e).getD 1 [])) := by
  have h' : validate_body content = Except.ok ((splitBlank (pyStrip content)).all
      fun e => decide (3 ≤ (splitNL e).length)
        && hasSub arrowTok ((splitNL e).getD 1 [])) := validateLoop_eq_all _
  simp only [validate_srt, h']

theorem natRepr_head (n : Nat) : ∃ c t, natRepr n = c :: t ∧ c.isDigit = true := by
  cases h : natRepr n with
  | nil => exact absurd h (natRepr_ne_nil n)
  | cons c t => exact ⟨c, t, rfl, natRepr_digits n c (by rw [h]; simp)⟩

theorem natRepr_no_nl (n : Nat) : '\n' ∉ natRepr n :=
  fun hm => digit_ne_nl '\n' (natRepr_digits n '\n' hm) rfl

theorem specEntry_split (i : Nat) (seg : Segment) :
    specEntry i seg = entryBody i seg ++ ['\n', '\n'] := by
  simp [specEntry, entryBody, timingLine, List.append_assoc]

theorem timingLine_no_nl (seg : Segment) (h0 : 0 ≤ seg.start) (h1 : 0 ≤ seg.ende) :
    '\n' ∉ timingLine seg := by
  intro hm
  rw [timingLine] at hm
  simp only [List.mem_append] at hm
  rcases hm with (hm | hm) | hm
  · exact zeit_ne_nl _ h0 hm
  · exact absurd hm (by decide)
  · exact zeit_ne_nl _ h1 hm

theorem timingLine_head (seg : Segment) (h0 : 0 ≤ seg.start) :
    ∃ c r, timingLine seg = c :: r ∧ c.isDigit = true := by
  obtain ⟨c, t, hct, hd⟩ := zeit_head seg.start h0
  refine ⟨c, t ++ arrowSep ++ sekunden_zu_srt_zeit seg.ende, ?_, hd⟩
  rw [timingLine, hct]
  rfl

theorem hasSub_cons (pat : List Char) (c : Char) (cs : List Char) :
    hasSub pat (c :: cs) = (hasLead pat (c :: cs) || hasSub pat cs) := rfl

theorem hasSub_arrow_timingLine (seg : Segment) :
    hasSub arrowTok (timingLine seg) = true := by
  rw [timingLine, List.append_assoc]
  apply hasSub_append_left
  rw [show arrowSep ++ sekunden_zu_srt_zeit seg.ende
      = ' ' :: (arrowTok ++ (' ' :: sekunden_zu_srt_zeit seg.ende)) from rfl]
  have h2 : hasSub arrowTok (arrowTok ++ (' ' :: sekunden_zu_srt_zeit seg.ende)) = true :=
    hasSub_of_hasLead (hasLead_append_self _ _)
  rw [hasSub_cons, h2, Bool.or_true]

theorem entryBody_head? (i : Nat) (seg : Segment) :
    ∃ c, (entryBody i seg).head? = some c ∧ c.isDigit = true := by
  obtain ⟨c, t, hct, hd⟩ := natRepr_head i
  refine ⟨c, ?_, hd⟩
  rw [entryBody, hct]
  rfl

theorem entryBody_ne_nil (i : Nat) (seg : Segment) : entryBody i seg ≠ [] := by
  obtain ⟨c, hc, _⟩ := entryBody_head? i seg
  intro he
  rw [he] at hc
  simp at hc

theorem entryBody_last (i : Nat) (seg : Segment) (h2 : pyStrip seg.text ≠ []) :
    ∃ c, (entryBody i seg).getLast? = some c ∧ isPySpace c = false := by
  obtain ⟨a, l, hal⟩ : ∃ a l, (pyStrip seg.text).reverse = a :: l := by
    cases hrev : (pyStrip seg.text).reverse with
    | nil => exact absurd (by simpa using congrArg List.reverse hrev) h2
    | cons a l => exact ⟨a, l, rfl⟩
  have hlast : (pyStrip seg.text).getLast? = some a := by
    rw [← List.head?_reverse, hal]
    rfl
  refine ⟨a, ?_, pyStrip_last seg.text a hlast⟩
  rw [entryBody, getLast?_append_right _ _ (by simp),
    show ('\n' :: (timingLine seg ++ '\n' :: pyStrip seg.text))
      = ['\n'] ++ (timingLine seg ++ '\n' :: pyStrip seg.text) from rfl,
    getLast?_append_right _ _ (by simp),
    getLast?_append_right _ _ (by simp),
    show ('\n' :: pyStrip seg.text) = ['\n'] ++ pyStrip seg.text from rfl,
    getLast?_append_right _ _ h2]
  exact hlast

theorem entryBody_good (i : Nat) (seg : Segment) (h0 : 0 ≤ seg.start)
    (h1 : 0 ≤ seg.ende) (h2 : pyStrip seg.text ≠ []) (h3 : '\n' ∉ pyStrip seg.text) :
    noNLNL (entryBody i seg ++ ['\n']) = true := by
  rw [entryBody, List.append_assoc, List.cons_append]
  apply noNLNL_append _ _ (natRepr_no_nl i)
  apply noNLNL_cons
  · obtain ⟨c, r, hcr, hd⟩ := timingLine_head seg h0
    rintro ⟨-, hh⟩
    rw [List.append_assoc, List.cons_append, hcr] at hh
    simp only [List.cons_append, List.head?_cons, Option.some.injEq] at hh
    exact digit_ne_nl c hd hh
  · rw [List.append_assoc, List.cons_append]
    apply noNLNL_append _ _ (timingLine_no_nl seg h0 h1)
    apply noNLNL_cons
    · cases htx : pyStrip seg.text with
      | nil => exact absurd htx h2
      | cons x xs =>
        rintro ⟨-, hh⟩
        have hcx : ((x :: xs) ++ ['\n']).head? = some x := rfl
        rw [hcx] at hh
        injection hh with hx
        apply h3
        rw [htx, ← hx]
        exact List.mem_cons_self x xs
    · exact noNLNL_append _ _ h3 rfl

theorem entryBody_splitNL (i : Nat) (seg : Segment) (h0 : 0 ≤ seg.start)
    (h1 : 0 ≤ seg.ende) (h3 : '\n' ∉ pyStrip seg.text) :
    splitNL (entryBody i seg) = [natRepr i, timingLine seg, pyStrip seg.text] := by
  rw [entryBody, splitNL_append _ _ (natRepr_no_nl i),
    splitNL_append _ _ (timingLine_no_nl seg h0 h1), splitNL_no_nl _ h3]

/-! ## Claim theorems -/

/-- C9: for every non-empty segment list whose start and end times are
non-negative and whose texts trim to something non-empty and free of
newlines, the Validator accepts the Formatter's output. -/
theorem c9_generated_validates (segmente : List Segment) (hne : segmente ≠ [])
    (hseg : ∀ seg ∈ segmente, 0 ≤ seg.start ∧ 0 ≤ seg.ende ∧
        pyStrip seg.text ≠ [] ∧ '\n' ∉ pyStrip seg.text) :
    validate_srt (erstelle_srt segmente) = true := by
  have hlen : 0 < segmente.length := List.length_pos.mpr hne
  set bodies := (List.range segmente.length).map
    (fun k => entryBody (k + 1) (segmente.getD k ⟨0, 0, []⟩)) with hbodies
  have hmemseg : ∀ k, k < segmente.length → segmente.getD k ⟨0, 0, []⟩ ∈ segmente := by
    intro k hk
    rw [List.getD_eq_getElem segmente _ hk]
    exact List.getElem_mem hk
  have hbody_props : ∀ b ∈ bodies, ∃ k seg, b = entryBody (k + 1) seg ∧ seg ∈ segmente := by
    intro b hb
    rw [hbodies] at hb
    obtain ⟨k, hk, rfl⟩ := List.mem_map.mp hb
    exact ⟨k, _, rfl, hmemseg k (List.mem_range.mp hk)⟩
  have hbodies_ne : bodies ≠ [] := by
    intro h
    cases hsg : segmente with
    | nil => exact hne hsg
    | cons s t =>
      rw [hbodies, hsg] at h
      simp at h
  have hgood : ∀ b ∈ bodies, noNLNL (b ++ ['\n']) = true := by
    intro b hb
    obtain ⟨k, seg, rfl, hsegmem⟩ := hbody_props b hb
    obtain ⟨p0, p1, p2, p3⟩ := hseg seg hsegmem
    exact entryBody_good _ seg p0 p1 p2 p3
  have h1 : erstelle_srt segmente = joinSep bodies ++ ['\n', '\n'] := by
    rw [erstelle_srt, erstelle_srt_loop_eq segmente [] 1, List.nil_append]
    have hfe : (fun k => specEntry (k + 1) (segmente.getD k ⟨0, 0, []⟩))
        = fun k => entryBody (k + 1) (segmente.getD k ⟨0, 0, []⟩) ++ ['\n', '\n'] :=
      funext fun k => specEntry_split _ _
    rw [hfe]
    rw [show (List.range segmente.length).map
          (fun k => entryBody (k + 1) (segmente.getD k ⟨0, 0, []⟩) ++ ['\n', '\n'])
        = bodies.map (fun b => b ++ ['\n', '\n']) from by
      rw [hbodies, List.map_map]
      rfl]
    exact flatten_blocks_joinSep bodies hbodies_ne
  have hstrip : pyStrip (erstelle_srt segmente) = joinSep bodies := by
    rw [h1]
    apply pyStrip_wrap
    · intro c hc
      obtain ⟨b0, rest, hb0⟩ : ∃ b0 rest, bodies = b0 :: rest := by
        cases hb : bodies with
        | nil => exact absurd hb hbodies_ne
        | cons b0 rest => exact ⟨b0, rest, rfl⟩
      rw [hb0] at hc
      have hb0mem : b0 ∈ bodies := by rw [hb0]; simp
      obtain ⟨k, seg, hbk, -⟩ := hbody_props b0 hb0mem
      rw [joinSep_head? b0 rest (by rw [hbk]; exact entryBody_ne_nil _ _)] at hc
      obtain ⟨c0, hc0, hd0⟩ := entryBody_head? (k + 1) seg
      rw [hbk, hc0] at hc
      injection hc with hcc
      subst hcc
      exact digit_not_space c0 hd0
    · intro c hc
      obtain ⟨c', hc', hcs'⟩ := joinSep_last bodies hbodies_ne (by
        intro b hb
        obtain ⟨k, seg, rfl, hsegmem⟩ := hbody_props b hb
        obtain ⟨-, -, p2, -⟩ := hseg seg hsegmem
        exact entryBody_last _ seg p2)
      rw [hc'] at hc
      injection hc with hcc
      subst hcc
      exact hcs'
  rw [validate_srt_eq_all, hstrip, splitBlank_joinSep bodies hbodies_ne hgood,
    List.all_eq_true]
  intro b hb
  obtain ⟨k, seg, rfl, hsegmem⟩ := hbody_props b hb
  obtain ⟨p0, p1, p2, p3⟩ := hseg seg hsegmem
  show (decide (3 ≤ (splitNL (entryBody (k + 1) seg)).length)
      && hasSub arrowTok ((splitNL (entryBody (k + 1) seg)).getD 1 [])) = true
  rw [entryBody_splitNL _ seg p0 p1 p3]
  simp [hasSub_arrow_timingLine seg]

/-- C9 witness: a single segment from 0 s to 2 s with text ` Hello `
(non-empty after trimming, no newlines) produces a blob the Validator
accepts. -/
theorem c9_generated_validates_witness :
    validate_srt (erstelle_srt [⟨0, 2, " Hello ".toList⟩]) = true :=
  c9_generated_validates [⟨0, 2, " Hello ".toList⟩] (by simp)
    (by
      intro seg hs
      simp only [List.mem_singleton] at hs
      subst hs
      refine ⟨by norm_num, by norm_num, by decide, by decide⟩)

/-- C10: the Formatter applied to the empty segment list returns the empty
string, and the Validator rejects that output. -/
theorem c10_empty_roundtrip :
    erstelle_srt [] = [] ∧ validate_srt (erstelle_srt []) = false := by
  decide

/-- C1: for a list of `n` segments the Formatter output is exactly the
concatenation, in input order, of one entry per segment, entry `k`
(0-based) carrying the index line `k + 1` — so index lines run contiguously
through 1..n with no reordering and no gaps — a timing line holding the
literal ` --> ` between the encoded start and end times, and the segment
text trimmed of surrounding whitespace, each entry closed by a blank line
(see `specEntry`). -/
theorem c1_formatter_entries (segmente : List Segment) :
    erstelle_srt segmente
      = ((List.range segmente.length).map fun k =>
          specEntry (k + 1) (segmente.getD k ⟨0, 0, []⟩)).flatten := by
  rw [erstelle_srt, erstelle_srt_loop_eq segmente [] 1]
  simp

/-- C8: the Validator accepts the well-formed two-entry example blob and
rejects the blob `1\nHello\n`, which has no arrow line. -/
theorem c8_validator_examples :
    validate_srt ("1\n00:00:00,000 --> 00:00:02,000\nHello\n\n" ++
      "2\n00:00:02,000 --> 00:00:04,000\nWorld\n").toList = true ∧
    validate_srt ("1\nHello\n").toList = false := by
  decide

/-- C5: the subtitle path is escaped by first mapping every backslash to a
forward slash and then expanding every literal colon to a backslash-escaped
colon; for the path `C:/tmp/sub.srt` the filter argument of the built
command is `subtitles='C\:/tmp/sub.srt'`, which contains `C\:/tmp/sub.srt`. -/
theorem c5_path_escaping :
    (∀ s : List Char,
      escapeSrtPath s =
        replaceChar ':' ['\\', ':'] (s.map fun c => if c = '\\' then '/' else c)) ∧
    (buildMergeCommand "video.mp4".toList "C:/tmp/sub.srt".toList
        "out.mp4".toList).getD 4 []
      = "subtitles=".toList ++ sq :: "C\\:/tmp/sub.srt".toList ++ [sq] ∧
    hasSub "C\\:/tmp/sub.srt".toList
      ((buildMergeCommand "video.mp4".toList "C:/tmp/sub.srt".toList
        "out.mp4".toList).getD 4 []) = true := by
  refine ⟨fun s => ?_, by decide, by decide⟩
  rw [escapeSrtPath, replaceChar_singleton]

/-- C5 witness: the escaping stages evaluated on a concrete path holding a
backslash and a colon. -/
theorem c5_path_escaping_witness :
    escapeSrtPath "C:\\x".toList =
      replaceChar ':' ['\\', ':'] ("C:\\x".toList.map fun c => if c = '\\' then '/' else c) :=
  c5_path_escaping.1 "C:\\x".toList

/-- C2 counterexample: the Python literal `7325.999` denotes its nearest
binary64 value, which lies below the rational 7325.999; on it the encoder
does not return `02:02:05,999` (the milliseconds truncate to 998). -/
theorem c2_cx_millis_truncation :
    sekunden_zu_srt_zeit pyFloat7325_999 ≠ "02:02:05,999".toList := by
  rw [zeit_eval pyFloat7325_999 7325 998 (by norm_num [pyFloat7325_999])
    (by norm_num [pyFloat7325_999]) (by norm_num [pyFloat7325_999])
    (by norm_num [pyFloat7325_999])]
  decide

/-- C2 amended: the Time Encoder returns `00:00:00,000` for input 0 and
`01:01:01,500` for input 3661.5; for input 7325.999 — whose binary64 value,
the one the program receives, lies slightly below the decimal literal — it
returns `02:02:05,998`. -/
theorem c2_amended_examples :
    sekunden_zu_srt_zeit 0 = "00:00:00,000".toList ∧
    sekunden_zu_srt_zeit (7323 / 2) = "01:01:01,500".toList ∧
    sekunden_zu_srt_zeit pyFloat7325_999 = "02:02:05,998".toList := by
  refine ⟨?_, ?_, ?_⟩
  · rw [zeit_eval 0 0 0 (by norm_num) (by norm_num) (by norm_num) (by norm_num)]
    decide
  · rw [zeit_eval (7323 / 2) 3661 500 (by norm_num) (by norm_num) (by norm_num)
      (by norm_num)]
    decide
  · rw [zeit_eval pyFloat7325_999 7325 998 (by norm_num [pyFloat7325_999])
      (by norm_num [pyFloat7325_999]) (by norm_num [pyFloat7325_999])
      (by norm_num [pyFloat7325_999])]
    decide

/-- C4 counterexample: a process that exits with status 0 but writes to
standard error makes the Merge Invoker report success with a non-empty
diagnostic, refuting the claim that the diagnostic is empty on success. -/
theorem c4_cx_success_diagnostic :
    (merge_video_mit_srt "v.mp4".toList "s.srt".toList "o.mp4".toList
        (fun _ => ProcResult.mk 0 "frame dropped".toList)).1 = true ∧
    ¬ (merge_video_mit_srt "v.mp4".toList "s.srt".toList "o.mp4".toList
        (fun _ => ProcResult.mk 0 "frame dropped".toList)).2 = [] := by
  decide

/-- C4 amended: the Merge Invoker reports success exactly when the external
process exits with status 0, and in every case (success included) the
diagnostic text is the captured standard-error text unchanged — it is empty
on success only when the process wrote nothing to standard error. -/
theorem c4_amended_merge_result (vp sp op : List Char)
    (run : List (List Char) → ProcResult) :
    ((merge_video_mit_srt vp sp op run).1 = true
      ↔ (run (buildMergeCommand vp sp op)).returncode = 0) ∧
    (merge_video_mit_srt vp sp op run).2
      = (run (buildMergeCommand vp sp op)).stderr := by
  refine ⟨?_, rfl⟩
  simp [merge_video_mit_srt]

/-- C7: on every input string the validator's `try` body completes normally
with the returned boolean — the guarded indexing never raises — so the
Validator always returns a boolean and any modelled parsing exception would
be coerced to `false` by its `except` clause rather than propagated. -/
theorem c7_validator_total (content : List Char) :
    validate_body content = Except.ok (validate_srt content) := by
  obtain ⟨b, hb⟩ := validateLoop_never_errors (splitBlank (pyStrip content))
  have hb' : validate_body content = Except.ok b := hb
  simp only [validate_srt, hb']

/-- C3: the Validator accepts exactly the blobs in which, after trimming
the whole blob and splitting on the double-newline separator, every block
has at least 3 lines and its second line contains `-->` — no other
(semantic) condition influences the outcome — and the empty blob is
rejected. -/
theorem c3_validator_shape_iff :
    (∀ content : List Char, validate_srt content = specShape content) ∧
    validate_srt [] = false := by
  refine ⟨fun content => ?_, by decide⟩
  have h := validateLoop_eq_all (splitBlank (pyStrip content))
  have h' : validate_body content = Except.ok ((splitBlank (pyStrip content)).all
      fun e => decide (3 ≤ (splitNL e).length)
        && hasSub arrowTok ((splitNL e).getD 1 [])) := h
  simp only [validate_srt, h', specShape]

/-- C4 amended witness: the amended statement evaluated at a failing
process with diagnostic text `boom`. -/
theorem c4_amended_merge_result_witness :
    ((merge_video_mit_srt "v".toList "s".toList "o".toList
        (fun _ => ProcResult.mk 1 "boom".toList)).1 = true
      ↔ ((fun _ => ProcResult.mk 1 "boom".toList)
          ((buildMergeCommand "v".toList "s".toList "o".toList) :
            List (List Char))).returncode = 0) ∧
    (merge_video_mit_srt "v".toList "s".toList "o".toList
        (fun _ => ProcResult.mk 1 "boom".toList)).2
      = ((fun _ => ProcResult.mk 1 "boom".toList)
          ((buildMergeCommand "v".toList "s".toList "o".toList) :
            List (List Char))).stderr :=
  c4_amended_merge_result "v".toList "s".toList "o".toList
    (fun _ => ProcResult.mk 1 "boom".toList)

end SubTitlePro
